import Mathlib

/-!
Verification of the cursor pagination engine of `furiousapi-beanie`
(`src/furiousapi/beanie/pagination.py`).

The embedding models documents as association lists from field names to
optional integer values (a nullable, totally ordered value domain that is
enough for every claim), Beanie/MongoDB query operators as an expression
tree, and the MongoDB store as a list of documents together with an
executable matching/sorting semantics.  The pagination classes
`BeanieLimitPagination` and `BeanieCursorPagination` are translated
function by function; the small amount of behaviour that lives in the
external `furiousapi-core` package (cursor encoding, the `reversed`
flag, request-cursor decoding) is modelled from the specification and
marked as such in the doc comments.
-/

namespace Beanie

/-- `furiousapi.core.fields.SortingDirection`: the per-field sort direction. -/
inductive SortingDirection where
  | ascending
  | descending
  deriving DecidableEq, Repr

/-- Inverting a direction (used by `~field` in `get_page_info`). -/
def SortingDirection.invert : SortingDirection → SortingDirection
  | .ascending => .descending
  | .descending => .ascending

/-- One entry of a sort specification (`SortableFieldEnum` member with its
direction): a model field name plus a direction. -/
structure SortField where
  name : String
  direction : SortingDirection
  deriving DecidableEq, Repr

/-- The `~field` operation used to build the inverted sort order in
`get_page_info`: same field, opposite direction. -/
def SortField.invert (f : SortField) : SortField :=
  ⟨f.name, f.direction.invert⟩

/-- One decoded cursor entry: `(field-name, serialized-value)`, with the
value already decoded to the typed domain (`none` encodes a JSON `null`). -/
abbrev CursorEntry := String × Option Int

/-- A decoded cursor: one entry per sort field. -/
abbrev Cursor := List CursorEntry

/-- A stored document: an association list from field names to nullable
values.  A missing field reads as `null`, as in MongoDB. -/
abbrev Doc := List (String × Option Int)

/-- Read a field of a document (missing fields read as `null`). -/
def dGet (d : Doc) (f : String) : Option Int :=
  match d.lookup f with
  | some v => v
  | none => none

/-- The right operand of a Beanie comparison operator.  `val` is an
ordinary (possibly null) decoded value; `rawPair` records the case in
`get_previous_clause` where the whole cursor *tuple* `(name, value)` is
passed to `set_operator` instead of the decoded value. -/
inductive OperandV where
  | val (v : Option Int)
  | rawPair (e : CursorEntry)
  deriving DecidableEq, Repr

/-- Beanie/MongoDB find-operator expression tree.  `feq`/`fne` are
`column == value` / `column != value`, `fgt`/`flt` are `column > value` /
`column < value`.  Beanie's variadic `And(*l)` / `Or(*l)` are embedded by
the folds `AndOp` / `OrOp` below, with `trueF` / `falseF` as the units. -/
inductive Filter where
  | feq (f : String) (v : Option Int)
  | fne (f : String) (v : Option Int)
  | fgt (f : String) (v : OperandV)
  | flt (f : String) (v : OperandV)
  | trueF
  | falseF
  | andB (a b : Filter)
  | orB (a b : Filter)
  deriving DecidableEq, Repr

/-- `beanie.operators.And(*l)`. -/
def AndOp (l : List Filter) : Filter :=
  l.foldr Filter.andB Filter.trueF

/-- `beanie.operators.Or(*l)`. -/
def OrOp (l : List Filter) : Filter :=
  l.foldr Filter.orB Filter.falseF

/-- The per-model data `BeanieCursorPagination` consults: the designated
id fields (constructor argument `id_fields`) and which model fields have a
nullable (`Optional[...]`) type hint (`get_model_field_hint` + `get_args`). -/
structure PagCfg where
  id_fields : List String
  nullable_fields : List String
  deriving Repr

/-- Matching semantics of the embedded operators against one document,
following MongoDB comparison semantics for the value domain used here:
equality matches `null` against `null`; `$gt`/`$lt` only relate two
non-null values (a `null` operand or a `null` field value never satisfies
a comparison), and a comparison whose operand is the raw cursor *pair*
(a BSON array) never matches an integer- or null-valued field, by BSON
type bracketing. -/
def evalF (d : Doc) : Filter → Bool
  | .feq f v => dGet d f == v
  | .fne f v => !(dGet d f == v)
  | .fgt f v =>
    match dGet d f, v with
    | some a, .val (some b) => decide (b < a)
    | _, _ => false
  | .flt f v =>
    match dGet d f, v with
    | some a, .val (some b) => decide (a < b)
    | _, _ => false
  | .trueF => true
  | .falseF => false
  | .andB a b => evalF d a && evalF d b
  | .orB a b => evalF d a || evalF d b

/-- `BeanieCursorPagination.cast`: converts the serialized cursor value
back to the field's type.  In this embedding cursor values are already
decoded members of the value domain, and the runtime type mapping
(`int`, `float`, `datetime`, ... each applied to its own serialized form,
`None` mapped to `None`) collapses to the identity. -/
def cast' (value : Option Int) : Option Int :=
  value

/-- `BeanieCursorPagination.set_operator`: `column > value` when ascending,
`column < value` when descending. -/
def set_operator (column : String) (value : OperandV) (direction : SortingDirection) : Filter :=
  if direction = .ascending then .fgt column value else .flt column value

/-- `BeanieCursorPagination._handle_nullable`: wraps the comparison clause
in `Or(column == None, clause)` when the column is nullable. -/
def handle_nullable (column : String) (value : Option Int)
    (direction : SortingDirection) (is_nullable : Bool) : Filter :=
  let clause := set_operator column (.val value) direction
  if is_nullable then OrOp [.feq column none, clause] else clause

/-- One element of the `column_cursors` list built in `get_filter`:
`(column, direction, cursor-entry)`, the column being the model attribute
named by the sort field. -/
abbrev ColumnCursor := String × SortingDirection × CursorEntry

/-- The clause `get_previous_clause` appends for one prefix entry:
equality against the decoded value for ordinary fields, but
`set_operator(column, cursor, direction)` — a comparison against the raw
cursor *pair* — for fields listed in `id_fields`. -/
def previous_item_clause (cfg : PagCfg) (x : ColumnCursor) : Filter :=
  let column := x.1
  let direction := x.2.1
  let cur := x.2.2
  if cur.1 ∉ cfg.id_fields then .feq column (cast' cur.2)
  else set_operator column (.rawPair cur) direction

/-- `BeanieCursorPagination.get_previous_clause`: `None` on an empty list,
otherwise the conjunction of the per-entry clauses. -/
def get_previous_clause (cfg : PagCfg) (column_cursors : List ColumnCursor) : Option Filter :=
  match column_cursors with
  | [] => none
  | _ => some (AndOp (column_cursors.map (previous_item_clause cfg)))

/-- `BeanieCursorPagination._prepare_current_clause`.  `is_nullable` is
computed exactly as in the source: the comprehension filter
`if str(cursor[0]) not in self.id_fields` empties the list for id fields,
so an id field is never treated as nullable.  Note that in the descending
branch the `is_index_query` test is vacuous — both branches build
`Or(column != None, column < value)` when the value is null — and that the
nullable relaxation (`_handle_nullable`) is only reachable from the
ascending branch. -/
def prepare_current_clause (cfg : PagCfg) (column : String)
    (direction : SortingDirection) (cursor : CursorEntry)
    (is_index_query : Bool) : Filter :=
  let value := cast' cursor.2
  let is_nullable := decide (cursor.1 ∉ cfg.id_fields) && decide (cursor.1 ∈ cfg.nullable_fields)
  match direction with
  | .ascending =>
    match value with
    | none =>
      if is_index_query then OrOp [.fne column none, .fgt column (.val none)]
      else .fgt column (.val none)
    | some v => handle_nullable column (some v) .ascending is_nullable
  | .descending =>
    match value with
    | none =>
      if is_index_query then OrOp [.fne column none, .flt column (.val none)]
      else OrOp [.fne column none, .flt column (.val none)]
    | some v => .flt column (.val (some v))

/-- `BeanieCursorPagination.get_filter_clause`: `And(previous, current)`
when there is a previous clause, the current clause alone otherwise.
The source always calls this with a non-empty list; the empty case returns
the neutral `And()`. -/
def get_filter_clause (cfg : PagCfg) (column_cursors : List ColumnCursor)
    (is_index_query : Bool) : Filter :=
  match column_cursors.getLast? with
  | none => AndOp []
  | some x =>
    let previous := get_previous_clause cfg column_cursors.dropLast
    let current := prepare_current_clause cfg x.1 x.2.1 x.2.2 is_index_query
    match previous with
    | none => current
    | some p => AndOp [p, current]

/-- `BeanieCursorPagination.get_filter`: zips the sort fields with the
cursor entries and returns the disjunction of the clauses built from every
non-empty prefix of the zipped list. -/
def get_filter (cfg : PagCfg) (field_orderings : List SortField) (cursor : Cursor)
    (is_index_query : Bool) : Filter :=
  let column_cursors : List ColumnCursor :=
    (field_orderings.zip cursor).map (fun p => (p.1.name, p.1.direction, p.2))
  OrOp ((List.range column_cursors.length).map
    (fun i => get_filter_clause cfg (column_cursors.take (i + 1)) is_index_query))

/-! ### The store: MongoDB matching, ordering and queries

Modelled from the spec (§6 collaborator contracts): the underlying store
supports composite predicates, sorting on declared fields and `count()`
under a filter.  Ordering of the nullable value domain follows MongoDB's
BSON comparison: `null` sorts before every integer in ascending order,
and a descending sort key reverses the comparison. -/

/-- BSON comparison of two nullable values: `null < integers`. -/
def cmpVal : Option Int → Option Int → Ordering
  | none, none => .eq
  | none, some _ => .lt
  | some _, none => .gt
  | some a, some b => if a < b then .lt else if b < a then .gt else .eq

/-- Comparison of two documents on a single sort field, honouring the
field's direction (a descending field reverses the comparison). -/
def fieldCmp (f : SortField) (d e : Doc) : Ordering :=
  if f.direction = .ascending then cmpVal (dGet d f.name) (dGet e f.name)
  else (cmpVal (dGet d f.name) (dGet e f.name)).swap

/-- Lexicographic comparison of two documents under a sort specification. -/
def cmpDocs : List SortField → Doc → Doc → Ordering
  | [], _, _ => .eq
  | f :: rest, d, e =>
    match fieldCmp f d e with
    | .eq => cmpDocs rest d e
    | o => o

/-- `d` sorts no later than `e` under the specification. -/
def docLe (spec : List SortField) (d e : Doc) : Prop :=
  cmpDocs spec d e ≠ .gt

instance (spec : List SortField) : DecidableRel (docLe spec) := fun d e => by
  unfold docLe; infer_instance

/-- `d` sorts strictly before `e` under the specification. -/
def docLt (spec : List SortField) (d e : Doc) : Prop :=
  cmpDocs spec d e = .lt

instance (spec : List SortField) : DecidableRel (docLt spec) := fun d e => by
  unfold docLt; infer_instance

/-- The store's sort of a result set under a sort specification. -/
def sortDocs (spec : List SortField) (docs : List Doc) : List Doc :=
  docs.insertionSort (docLe spec)

/-- The state of a Beanie `FindMany` query object: its accumulated find
expressions, the sort applied to it (if any) and the limit applied to it
(if any).  Beanie's `.sort(...)` and `.limit(...)` mutate the query object
in place; the embedding passes this state explicitly. -/
structure FindMany where
  find_expressions : List Filter
  sortSpec : Option (List SortField)
  limitN : Option Nat
  deriving DecidableEq, Repr

/-- Executing a query against the store: filter by the conjunction of the
find expressions, sort if a sort was applied, truncate if a limit was
applied. -/
def execQuery (store : List Doc) (q : FindMany) : List Doc :=
  let m := store.filter (fun d => q.find_expressions.all (fun c => evalF d c))
  let m := match q.sortSpec with
    | some sp => sortDocs sp m
    | none => m
  match q.limitN with
  | some k => m.take k
  | none => m

/-- `query.count()`: Beanie counts the documents matching the find
expressions, ignoring sort and limit. -/
def queryCount (store : List Doc) (q : FindMany) : Nat :=
  (store.filter (fun d => q.find_expressions.all (fun c => evalF d c))).length

/-! ### Page fetcher and pagination façade -/

/-- `BeanieLimitPagination.get_page`: applies `.limit(limit + 1)` to the
query (mutating it — the mutated state is returned alongside), fetches,
and reports `has_next_page` by the limit-plus-one probe, trimming the item
list to `limit` when the probe overflows. -/
def limit_get_page (store : List Doc) (query : FindMany) (limit : Nat) :
    (List Doc × Bool) × FindMany :=
  let query2 := { query with limitN := some (limit + 1) }
  let items := execQuery store query2
  if items.length > limit then ((items.take limit, true), query2)
  else ((items, false), query2)

/-- Modelled from the spec (§4.1 Cursor Codec, `make_cursor`): encoding a
cursor from an entity extracts, for each sort field in order, the field
name paired with the entity's value for that field.  Direction plays no
part in the encoding. -/
def mkCursor (entity : Doc) (field_orderings : List SortField) : Cursor :=
  field_orderings.map (fun f => (f.name, dGet entity f.name))

/-- The count issued by `get_page_info` (lines 211–214): documents
matching the index filter (built from the inverted sort order in
index-query mode) conjoined with the base query's find expressions —
Python truthiness makes an empty expression list fall back to the index
filter alone. -/
def index_query_count (cfg : PagCfg) (store : List Doc) (query : FindMany)
    (field_orderings : List SortField) (cursor : Cursor) : Nat :=
  let inverted := field_orderings.map SortField.invert
  let index_filter := get_filter cfg inverted cursor true
  let filter_clause :=
    if query.find_expressions.isEmpty then index_filter
    else AndOp (index_filter :: query.find_expressions)
  (store.filter (fun d => evalF d filter_clause)).length

/-- `PaginatedResponse`. -/
structure PaginatedResponse where
  items : List Doc
  next : Option Cursor
  index : Option Int
  total : Nat
  deriving DecidableEq, Repr

/-- `BeanieCursorPagination.get_page_info`.  `reversed` is the
reverse-traversal flag of the paginator, modelled from the spec. -/
def get_page_info (cfg : PagCfg) (store : List Doc) (query : FindMany)
    (field_orderings : List SortField) (cursor : Option Cursor)
    (items : List Doc) (reversed : Bool) : Option Int × Nat :=
  let total := queryCount store query
  match cursor with
  | none => (if items.isEmpty then none else some 0, total)
  | some cur =>
    let index : Int := index_query_count cfg store query field_orderings cur + 1
    let index : Int :=
      if reversed then max ((total : Int) - index - items.length) 0 else index
    (if items.isEmpty then none else some index, total)

/-- The query executed by `BeanieCursorPagination.get_page`: with a cursor
a *fresh* query is built from the seek filter conjoined with the caller's
find expressions, sorted by the (converted) sort specification; without a
cursor the sort is applied in place to the caller's own query object and
that object is used. -/
def effective_query (cfg : PagCfg) (query : FindMany)
    (field_orderings : List SortField) (cursor_in : Option Cursor) : FindMany :=
  match cursor_in with
  | some cur =>
    let page_query := AndOp (get_filter cfg field_orderings cur false :: query.find_expressions)
    ⟨[page_query], some field_orderings, none⟩
  | none => { query with sortSpec := some field_orderings }

/-- `BeanieCursorPagination.get_page`.  The incoming token is modelled as
an already-decoded cursor (`get_request_cursor` is modelled from the spec:
decoding is the strict inverse of encoding, and a null token means "no
cursor").  The returned pair is `(response, caller's query object state
after the call)` — the no-cursor branch executes (and therefore mutates)
the caller's query, the cursor branch leaves it untouched. -/
def cursor_get_page (cfg : PagCfg) (store : List Doc) (query : FindMany)
    (field_orderings : List SortField) (limit : Nat)
    (next_ : Option Cursor) (reversed : Bool) : PaginatedResponse × FindMany :=
  let cursor_in := next_
  let eff := effective_query cfg query field_orderings cursor_in
  let fetched := limit_get_page store eff limit
  let items0 := fetched.1.1
  let has_next := fetched.1.2
  let items := if reversed then items0.reverse else items0
  let next_out :=
    match items.getLast? with
    | none => none
    | some l => if has_next then some (mkCursor l field_orderings) else none
  let info := get_page_info cfg store query field_orderings cursor_in items reversed
  let qOut :=
    match cursor_in with
    | none => fetched.2
    | some _ => query
  (⟨items, next_out, info.1, info.2⟩, qOut)

/-- Iterating the result set page by page, feeding each returned `next`
cursor into the following call; each call is made on a fresh copy of the
caller's base query, as `repository.list` does.  `fuel` bounds the number
of calls. -/
def paginate (cfg : PagCfg) (store : List Doc) (query : FindMany)
    (field_orderings : List SortField) (limit : Nat) :
    Nat → Option Cursor → List Doc
  | 0, _ => []
  | fuel + 1, cur =>
    let r := (cursor_get_page cfg store query field_orderings limit cur false).1
    r.items ++
      (match r.next with
       | none => []
       | some c => paginate cfg store query field_orderings limit fuel (some c))

/-! ### Definitions taken from the specification's words (for comparison
against the source-derived definitions above) -/

/-- Default element used when indexing zipped (field, cursor-entry) lists. -/
def defaultPair : SortField × CursorEntry :=
  (⟨"", .ascending⟩, ("", none))

/-- Default element used when indexing `ColumnCursor` lists. -/
def dCC : ColumnCursor :=
  ("", .ascending, ("", none))

/-- Claim C1, as the spec words it: clause `i` is the conjunction of
equality on the first `i-1` cursor fields — each against the cursor's
decoded value — and the direction comparison on field `i`. -/
def c1_claim_clause (pairs : List (SortField × CursorEntry)) (i : Nat) : Filter :=
  let x := pairs.getD i defaultPair
  AndOp (((pairs.take i).map (fun p => Filter.feq p.1.name p.2.2)) ++
    [set_operator x.1.name (.val x.2.2) x.1.direction])

/-- Claim C1, as the spec words it: the disjunction of the `n` clauses. -/
def c1_claim_filter (field_orderings : List SortField) (cursor : Cursor) : Filter :=
  let pairs := field_orderings.zip cursor
  OrOp ((List.range pairs.length).map (c1_claim_clause pairs))

/-- Amended claim C1, clause shape: the direction comparison alone for the
first clause, otherwise `And(And(prefix equalities), comparison)` with the
prefix equalities taken against the decoded cursor values. -/
def c1_amended_clause (pairs : List (SortField × CursorEntry)) (i : Nat) : Filter :=
  let x := pairs.getD i defaultPair
  let current := set_operator x.1.name (.val x.2.2) x.1.direction
  if i = 0 then current
  else AndOp [AndOp ((pairs.take i).map (fun p => Filter.feq p.1.name p.2.2)), current]

/-- Amended claim C1: the disjunction of the `n` amended clauses. -/
def c1_amended_filter (field_orderings : List SortField) (cursor : Cursor) : Filter :=
  let pairs := field_orderings.zip cursor
  OrOp ((List.range pairs.length).map (c1_amended_clause pairs))

/-- Claim C5, reverse branch, as the spec words it: `total` minus the
count of documents matching `(inverted filter) AND (base query)` minus the
number of items in the page, clamped to a minimum of zero. -/
def c5_claim_reverse_index (cfg : PagCfg) (store : List Doc) (query : FindMany)
    (field_orderings : List SortField) (cursor : Cursor) (items : List Doc) : Int :=
  max ((queryCount store query : Int)
    - index_query_count cfg store query field_orderings cursor - items.length) 0

/-- The page trim applied by the fetch step followed by the reverse-mode
reordering, as performed inside `get_page` (used to state claim C10). -/
def trimPage (executed : List Doc) (limit : Nat) (reversed : Bool) : List Doc :=
  let page := if executed.length > limit then executed.take limit else executed
  if reversed then page.reverse else page

/-! ### Concrete fixtures used by counterexamples and witnesses -/

/-- A paginator configuration with id field `id` and nullable field `n`. -/
def exCfg : PagCfg := ⟨["id"], ["n"]⟩

/-- A paginator configuration with no id fields and no nullable fields. -/
def exCfg0 : PagCfg := ⟨[], []⟩

/-- An unfiltered, unsorted, unlimited base query. -/
def exQ : FindMany := ⟨[], none, none⟩

/-- Sort by `a` ascending only. -/
def exSpecA : List SortField := [⟨"a", .ascending⟩]

/-- Sort by `a` ascending, tie-broken by the unique `id` ascending. -/
def exSpecAI : List SortField := [⟨"a", .ascending⟩, ⟨"id", .ascending⟩]

/-- Sort by nullable `n` descending, tie-broken by the unique `id`. -/
def exSpecND : List SortField := [⟨"n", .descending⟩, ⟨"id", .ascending⟩]

/-- Five documents with `a` running 1..5. -/
def exStore5 : List Doc :=
  [[("a", some 1)], [("a", some 2)], [("a", some 3)], [("a", some 4)], [("a", some 5)]]

/-- Three documents with distinct ids; two share `a = 1`. -/
def exStore3 : List Doc :=
  [[("a", some 2), ("id", some 1)], [("a", some 1), ("id", some 2)],
    [("a", some 1), ("id", some 3)]]

/-- Three documents with distinct ids, one with a null `n`. -/
def exStoreN : List Doc :=
  [[("n", some 2), ("id", some 1)], [("n", some 1), ("id", some 2)],
    [("n", none), ("id", some 3)]]

/-- Two documents with distinct ids. -/
def exStore2 : List Doc := [[("id", some 1)], [("id", some 2)]]

/-- Sort by the unique `id` ascending only. -/
def exSpecI : List SortField := [⟨"id", .ascending⟩]

/-! ### Helper lemmas: evaluation of the variadic operators -/

theorem evalF_AndOp (d : Doc) (l : List Filter) :
    evalF d (AndOp l) = l.all (fun c => evalF d c) := by
  induction l with
  | nil => rfl
  | cons c t ih => simp [AndOp, evalF, List.all_cons] at ih ⊢; rw [ih]

theorem evalF_OrOp (d : Doc) (l : List Filter) :
    evalF d (OrOp l) = l.any (fun c => evalF d c) := by
  induction l with
  | nil => rfl
  | cons c t ih => simp [OrOp, evalF, List.any_cons] at ih ⊢; rw [ih]

/-! ### Helper lemmas: the document ordering -/

theorem cmpVal_refl (a : Option Int) : cmpVal a a = .eq := by
  cases a with
  | none => rfl
  | some x => simp [cmpVal]

theorem cmpVal_some_lt_iff {a b : Int} : cmpVal (some a) (some b) = .lt ↔ a < b := by
  simp only [cmpVal]
  split_ifs with h1 h2
  · simp [h1]
  · constructor
    · intro hc; exact absurd hc (by decide)
    · intro hc; exact absurd hc h1
  · constructor
    · intro hc; exact absurd hc (by decide)
    · intro hc; exact absurd hc h1

theorem cmpVal_some_gt_iff {a b : Int} : cmpVal (some a) (some b) = .gt ↔ b < a := by
  simp only [cmpVal]
  split_ifs with h1 h2
  · constructor
    · intro hc; exact absurd hc (by decide)
    · intro hc; omega
  · simp [h2]
  · constructor
    · intro hc; exact absurd hc (by decide)
    · intro hc; exact absurd hc h2

theorem cmpVal_eq_iff {a b : Option Int} : cmpVal a b = .eq ↔ a = b := by
  cases a <;> cases b
  · simp [cmpVal]
  · simp [cmpVal]
  · simp [cmpVal]
  · rename_i x y
    simp only [cmpVal, Option.some.injEq]
    split_ifs with h1 h2
    · constructor
      · intro hc; exact absurd hc (by decide)
      · intro hc; omega
    · constructor
      · intro hc; exact absurd hc (by decide)
      · intro hc; omega
    · constructor
      · intro _; omega
      · intro _; rfl

theorem cmpVal_swap (a b : Option Int) : cmpVal a b = (cmpVal b a).swap := by
  cases a <;> cases b
  · rfl
  · rfl
  · rfl
  · rename_i x y
    simp only [cmpVal]
    rcases lt_trichotomy x y with h | h | h
    · rw [if_pos h, if_neg (by omega), if_pos h]; rfl
    · subst h
      rw [if_neg (by omega), if_neg (by omega)]; rfl
    · rw [if_neg (by omega), if_pos h, if_pos h]; rfl

theorem cmpVal_lt_trans {a b c : Option Int} :
    cmpVal a b = .lt → cmpVal b c = .lt → cmpVal a c = .lt := by
  cases a <;> cases b <;> cases c
  · intro h1 _; simp [cmpVal] at h1
  · intro h1 _; simp [cmpVal] at h1
  · intro _ h2; simp [cmpVal] at h2
  · intro _ _; rfl
  · intro h1 _; simp [cmpVal] at h1
  · intro h1 _; simp [cmpVal] at h1
  · intro _ h2; simp [cmpVal] at h2
  · intro h1 h2
    rename_i x y z
    rw [cmpVal_some_lt_iff] at h1 h2 ⊢
    omega

theorem fieldCmp_refl (f : SortField) (d : Doc) : fieldCmp f d d = .eq := by
  unfold fieldCmp
  rw [cmpVal_refl]
  split
  · rfl
  · rfl

theorem swap_eq_iff {o : Ordering} : o.swap = .eq ↔ o = .eq := by
  cases o <;> decide

theorem swap_lt_iff {o : Ordering} : o.swap = .lt ↔ o = .gt := by
  cases o <;> decide

theorem fieldCmp_eq_iff {f : SortField} {d e : Doc} :
    fieldCmp f d e = .eq ↔ dGet d f.name = dGet e f.name := by
  unfold fieldCmp
  by_cases h : f.direction = .ascending
  · rw [if_pos h]
    exact cmpVal_eq_iff
  · rw [if_neg h, swap_eq_iff]
    exact cmpVal_eq_iff

theorem fieldCmp_swap (f : SortField) (d e : Doc) : fieldCmp f d e = (fieldCmp f e d).swap := by
  unfold fieldCmp
  by_cases h : f.direction = .ascending
  · rw [if_pos h, if_pos h, cmpVal_swap]
  · rw [if_neg h, if_neg h, Ordering.swap_swap, cmpVal_swap, Ordering.swap_swap]

theorem fieldCmp_lt_trans {f : SortField} {d e g : Doc} (h1 : fieldCmp f d e = .lt)
    (h2 : fieldCmp f e g = .lt) : fieldCmp f d g = .lt := by
  unfold fieldCmp at *
  by_cases hd : f.direction = .ascending
  · rw [if_pos hd] at h1 h2 ⊢
    exact cmpVal_lt_trans h1 h2
  · rw [if_neg hd] at h1 h2 ⊢
    rw [swap_lt_iff] at h1 h2 ⊢
    have g1 : cmpVal (dGet g f.name) (dGet e f.name) = .lt := by
      rw [cmpVal_swap, h2]; rfl
    have g2 : cmpVal (dGet e f.name) (dGet d f.name) = .lt := by
      rw [cmpVal_swap, h1]; rfl
    rw [cmpVal_swap, cmpVal_lt_trans g1 g2]
    rfl

theorem cmpDocs_refl (spec : List SortField) (d : Doc) : cmpDocs spec d d = .eq := by
  induction spec with
  | nil => rfl
  | cons f rest ih => simp [cmpDocs, fieldCmp_refl, ih]

theorem cmpDocs_swap (spec : List SortField) (d e : Doc) :
    cmpDocs spec d e = (cmpDocs spec e d).swap := by
  induction spec with
  | nil => rfl
  | cons f rest ih =>
    simp only [cmpDocs]
    rw [fieldCmp_swap f d e]
    cases h : fieldCmp f e d <;> simp [Ordering.swap, ih]

theorem cmpDocs_eq_field {spec : List SortField} {d e : Doc} (h : cmpDocs spec d e = .eq) :
    ∀ f ∈ spec, dGet d f.name = dGet e f.name := by
  induction spec with
  | nil => intro f hf; cases hf
  | cons g rest ih =>
    intro f hf
    simp only [cmpDocs] at h
    rcases hg : fieldCmp g d e with _ | _ | _ <;> rw [hg] at h
    · cases h
    · rcases List.mem_cons.mp hf with rfl | hf'
      · exact fieldCmp_eq_iff.mp hg
      · exact ih h f hf'
    · cases h

theorem cmpDocs_lt_trans {spec : List SortField} {d e g : Doc}
    (h1 : cmpDocs spec d e = .lt) (h2 : cmpDocs spec e g = .lt) : cmpDocs spec d g = .lt := by
  induction spec with
  | nil => cases h1
  | cons f rest ih =>
    simp only [cmpDocs] at h1 h2 ⊢
    rcases ha : fieldCmp f d e with _ | _ | _ <;> rw [ha] at h1
    · rcases hb : fieldCmp f e g with _ | _ | _ <;> rw [hb] at h2
      · rw [fieldCmp_lt_trans ha hb]
      · have : dGet e f.name = dGet g f.name := fieldCmp_eq_iff.mp hb
        have : fieldCmp f d g = .lt := by
          unfold fieldCmp at ha ⊢
          rw [← this]; exact ha
        rw [this]
      · cases h2
    · rcases hb : fieldCmp f e g with _ | _ | _ <;> rw [hb] at h2
      · have hde : dGet d f.name = dGet e f.name := fieldCmp_eq_iff.mp ha
        have : fieldCmp f d g = .lt := by
          unfold fieldCmp at hb ⊢
          rw [hde]; exact hb
        rw [this]
      · have : fieldCmp f d g = .eq := by
          rw [fieldCmp_eq_iff, fieldCmp_eq_iff.mp ha, fieldCmp_eq_iff.mp hb]
        rw [this]
        exact ih h1 h2
      · cases h2
    · cases h1

theorem cmpDocs_congr_left {spec : List SortField} {d e g : Doc}
    (h : ∀ f ∈ spec, dGet d f.name = dGet e f.name) :
    cmpDocs spec d g = cmpDocs spec e g := by
  induction spec with
  | nil => rfl
  | cons f rest ih =>
    simp only [cmpDocs]
    have hf : dGet d f.name = dGet e f.name := h f (List.mem_cons_self f rest)
    have hfc : fieldCmp f d g = fieldCmp f e g := by unfold fieldCmp; rw [hf]
    rw [hfc, ih (fun f' hf' => h f' (List.mem_cons_of_mem f hf'))]

theorem cmpDocs_congr_right {spec : List SortField} {d e g : Doc}
    (h : ∀ f ∈ spec, dGet e f.name = dGet g f.name) :
    cmpDocs spec d e = cmpDocs spec d g := by
  rw [cmpDocs_swap spec d e, cmpDocs_swap spec d g, cmpDocs_congr_left h]

theorem cmpDocs_eq_trans_lt {spec : List SortField} {d e g : Doc}
    (h1 : cmpDocs spec d e = .eq) (h2 : cmpDocs spec e g = .lt) : cmpDocs spec d g = .lt := by
  rw [cmpDocs_congr_left (cmpDocs_eq_field h1)]
  exact h2

theorem docLe_trans {spec : List SortField} {d e g : Doc}
    (h1 : docLe spec d e) (h2 : docLe spec e g) : docLe spec d g := by
  unfold docLe at *
  rcases ha : cmpDocs spec d e with _ | _ | _
  · rcases hb : cmpDocs spec e g with _ | _ | _
    · rw [cmpDocs_lt_trans ha hb]; simp
    · rw [← cmpDocs_congr_right (cmpDocs_eq_field hb), ha]; simp
    · exact absurd hb h2
  · rw [cmpDocs_congr_left (cmpDocs_eq_field ha)]
    exact h2
  · exact absurd ha h1

theorem docLe_total (spec : List SortField) (d e : Doc) :
    docLe spec d e ∨ docLe spec e d := by
  unfold docLe
  rcases h : cmpDocs spec d e with _ | _ | _
  · left; simp
  · left; simp
  · right
    rw [cmpDocs_swap, h]
    simp [Ordering.swap]

theorem docLt_asymm {spec : List SortField} {d e : Doc} (h : docLt spec d e) :
    ¬ docLt spec e d := by
  unfold docLt at *
  rw [cmpDocs_swap, h]
  simp [Ordering.swap]

theorem docLe_of_not_lt {spec : List SortField} {d e : Doc} (h : ¬ docLt spec e d) :
    docLe spec d e := by
  unfold docLt at h
  unfold docLe
  rw [cmpDocs_swap] at h
  intro hc
  rw [hc] at h
  exact h rfl

theorem docLt_of_le_of_ne_last {spec : List SortField} {uf : SortField}
    (hspec : spec.getLast? = some uf) {d e : Doc} (hle : docLe spec d e)
    (hne : dGet d uf.name ≠ dGet e uf.name) : docLt spec d e := by
  unfold docLe at hle
  unfold docLt
  rcases h : cmpDocs spec d e with _ | _ | _
  · rfl
  · exfalso
    have huf : uf ∈ spec := by
      rcases List.getLast?_eq_getElem? spec ▸ hspec with h'
    -- membership of the last element
      have hlen : spec.length - 1 < spec.length := by
        cases spec with
        | nil => simp at h'
        | cons a t => simp
      have := List.getElem?_eq_getElem hlen
      rw [this] at h'
      have : spec[spec.length - 1] = uf := by injection h'
      rw [← this]
      exact List.getElem_mem hlen
    exact hne (cmpDocs_eq_field h uf huf)
  · exact absurd h hle

/-! ### Helper lemmas: sorting -/

theorem sortDocs_perm (spec : List SortField) (l : List Doc) : (sortDocs spec l).Perm l :=
  List.perm_insertionSort (docLe spec) l

theorem sortDocs_sorted (spec : List SortField) (l : List Doc) :
    (sortDocs spec l).Pairwise (docLe spec) :=
  @List.sorted_insertionSort Doc (docLe spec) _
    ⟨docLe_total spec⟩ ⟨fun _ _ _ => docLe_trans⟩ l

/-- Sorting a list of documents that are pairwise distinguished by the
final sort field yields a strictly increasing list. -/
theorem sortDocs_pairwise_lt {spec : List SortField} {uf : SortField}
    (hspec : spec.getLast? = some uf) {l : List Doc}
    (hl : l.Pairwise (fun d e => dGet d uf.name ≠ dGet e uf.name)) :
    (sortDocs spec l).Pairwise (docLt spec) := by
  have hperm := sortDocs_perm spec l
  have hne : (sortDocs spec l).Pairwise (fun d e => dGet d uf.name ≠ dGet e uf.name) :=
    (List.Perm.pairwise_iff (fun h he => h he.symm) hperm).mpr hl
  have hsorted := sortDocs_sorted spec l
  exact (hsorted.and hne).imp (fun h => docLt_of_le_of_ne_last hspec h.1 h.2)

/-- Two permuted, strictly sorted lists are equal. -/
theorem perm_pairwise_lt_eq {spec : List SortField} :
    ∀ {l1 l2 : List Doc}, l1.Perm l2 → l1.Pairwise (docLt spec) →
      l2.Pairwise (docLt spec) → l1 = l2 := by
  intro l1
  induction l1 with
  | nil => intro l2 hp _ _; simpa using hp.symm.eq_nil
  | cons a t ih =>
    intro l2 hp h1 h2
    cases l2 with
    | nil => exact absurd hp.symm (by simp [List.Perm])
    | cons b t2 =>
      rcases List.pairwise_cons.mp h1 with ⟨ha, ht⟩
      rcases List.pairwise_cons.mp h2 with ⟨hb, ht2⟩
      by_cases hab : a = b
      · subst hab
        rw [ih (hp.cons_inv) ht ht2]
      · exfalso
        have haIn : a ∈ b :: t2 := hp.mem_iff.mp (List.mem_cons_self a t)
        have hbIn : b ∈ a :: t := hp.symm.mem_iff.mp (List.mem_cons_self b t2)
        have h1' : docLt spec b a := hb a (by
          rcases List.mem_cons.mp haIn with h | h
          · exact absurd h hab
          · exact h)
        have h2' : docLt spec a b := ha b (by
          rcases List.mem_cons.mp hbIn with h | h
          · exact absurd h.symm hab
          · exact h)
        exact docLt_asymm h2' h1'

/-! ### Helper lemmas: structure of `get_filter` -/

theorem gfc_singleton (cfg : PagCfg) (x : ColumnCursor) (iq : Bool) :
    get_filter_clause cfg [x] iq = prepare_current_clause cfg x.1 x.2.1 x.2.2 iq := rfl

theorem gfc_concat (cfg : PagCfg) (iq : Bool) (init : List ColumnCursor) (L : ColumnCursor) :
    get_filter_clause cfg (init ++ [L]) iq =
      match init with
      | [] => prepare_current_clause cfg L.1 L.2.1 L.2.2 iq
      | _ => AndOp [AndOp (init.map (previous_item_clause cfg)),
          prepare_current_clause cfg L.1 L.2.1 L.2.2 iq] := by
  unfold get_filter_clause
  rw [List.getLast?_concat, List.dropLast_concat]
  cases init with
  | nil => rfl
  | cons a t => rfl

theorem range_map_take_cons {α β : Type} (g : List α → β) (x : α) (xs : List α) :
    (List.range (xs.length + 1)).map (fun i => g ((x :: xs).take (i + 1)))
      = g [x] :: (List.range xs.length).map (fun i => g (x :: xs.take (i + 1))) := by
  rw [List.range_succ_eq_map]
  simp [List.map_map, Function.comp_def, List.take_succ_cons]

theorem any_and_left {β : Type} (l : List β) (a : Bool) (f : β → Bool) :
    l.any (fun i => a && f i) = (a && l.any f) := by
  cases a
  · simp
  · simp

/-- Unfolding `get_filter` to its disjunction of prefix clauses. -/
theorem get_filter_def (cfg : PagCfg) (field_orderings : List SortField) (cursor : Cursor)
    (iq : Bool) :
    get_filter cfg field_orderings cursor iq =
      OrOp ((List.range ((field_orderings.zip cursor).length)).map
        (fun i => get_filter_clause cfg
          (((field_orderings.zip cursor).map (fun p => (p.1.name, p.1.direction, p.2))).take (i + 1)) iq)) := by
  unfold get_filter
  simp only [List.length_map]

/-! ### Helper lemmas: evaluation of the seek filter against the ordering -/

/-- Evaluating `_handle_nullable` in the ascending direction on a
non-null boundary value and a non-null document value. -/
theorem evalF_handle_nullable_asc (column : String) (v : Int) (nb : Bool) (d : Doc) (w : Int)
    (hd : dGet d column = some w) :
    evalF d (handle_nullable column (some v) .ascending nb) = decide (v < w) := by
  unfold handle_nullable set_operator
  rw [if_pos rfl]
  cases nb
  · simp [evalF, hd]
  · simp [OrOp, evalF, hd]

/-- Evaluation of the current clause of a page filter (not an index
query) on non-null boundary and document values: exactly the
direction-consistent strict comparison. -/
theorem evalF_current_nonnull (cfg : PagCfg) (f : SortField) (b d : Doc) {vb w : Int}
    (hb : dGet b f.name = some vb) (hd : dGet d f.name = some w) :
    evalF d (prepare_current_clause cfg f.name f.direction (f.name, dGet b f.name) false)
      = decide (fieldCmp f b d = .lt) := by
  rw [hb]
  unfold prepare_current_clause fieldCmp
  cases hdir : f.direction with
  | ascending =>
    rw [if_pos rfl, hb, hd]
    simp only [cast']
    rw [evalF_handle_nullable_asc f.name vb _ d w hd]
    exact decide_eq_decide.mpr cmpVal_some_lt_iff.symm
  | descending =>
    rw [if_neg (by decide), hb, hd]
    simp only [cast']
    have hiff : ((cmpVal (some vb) (some w)).swap = .lt) ↔ (w < vb) := by
      rw [swap_lt_iff]
      exact cmpVal_some_gt_iff
    simp [evalF, hd, hiff]

/-- Evaluation of the prefix equality clause for a non-id field. -/
theorem evalF_previous_eq (cfg : PagCfg) (f : SortField) (b d : Doc)
    (hidf : f.name ∉ cfg.id_fields) :
    evalF d (previous_item_clause cfg (f.name, f.direction, (f.name, dGet b f.name)))
      = decide (fieldCmp f b d = .eq) := by
  unfold previous_item_clause
  rw [if_pos hidf]
  have h1 : decide (fieldCmp f b d = .eq) = decide (dGet b f.name = dGet d f.name) :=
    decide_eq_decide.mpr fieldCmp_eq_iff
  simp only [cast', evalF, h1]
  by_cases h : dGet b f.name = dGet d f.name
  · simp [h]
  · have h2 : ¬ dGet d f.name = dGet b f.name := fun hc => h hc.symm
    simp [h, h2]

theorem take_succ_getD {α : Type} (l : List α) (i : Nat) (h : i < l.length) (dflt : α) :
    l.take (i + 1) = l.take i ++ [l.getD i dflt] := by
  have hg : l[i]? = some l[i] := List.getElem?_eq_getElem h
  rw [List.take_succ, hg]
  have hd : l.getD i dflt = l[i] := by
    rw [List.getD_eq_getElem?_getD, hg]
    rfl
  rw [hd]
  rfl

/-- Evaluation of the clause built from the prefix of length `i + 1`:
the conjunction of the per-entry prefix clauses for the first `i` entries
and the current clause for entry `i`. -/
theorem evalF_gfc_take (cfg : PagCfg) (iq : Bool) (d : Doc) (cc : List ColumnCursor)
    (i : Nat) (h : i < cc.length) :
    evalF d (get_filter_clause cfg (cc.take (i + 1)) iq)
      = (((cc.take i).map (previous_item_clause cfg)).all (fun c => evalF d c)
        && evalF d (prepare_current_clause cfg (cc.getD i dCC).1 (cc.getD i dCC).2.1
            (cc.getD i dCC).2.2 iq)) := by
  rw [take_succ_getD cc i h dCC, gfc_concat]
  cases hcc : cc.take i with
  | nil => simp
  | cons a t =>
    simp only [evalF_AndOp, List.all_cons, List.all_nil, List.map_cons, evalF]
    have hfold := evalF_AndOp d (List.map (previous_item_clause cfg) t)
    unfold AndOp at hfold
    rw [hfold]
    simp [Bool.and_assoc]

theorem OrOp_cons (c : Filter) (l : List Filter) : OrOp (c :: l) = .orB c (OrOp l) := rfl

theorem AndOp_cons (c : Filter) (l : List Filter) : AndOp (c :: l) = .andB c (AndOp l) := rfl

theorem mkCursor_cons (b : Doc) (f : SortField) (spec : List SortField) :
    mkCursor b (f :: spec) = (f.name, dGet b f.name) :: mkCursor b spec := rfl

theorem any_map_fn {α β : Type} (f : α → β) (l : List α) (p : β → Bool) :
    (l.map f).any p = l.any (fun x => p (f x)) := by
  induction l with
  | nil => rfl
  | cons a t ih => simp only [List.map_cons, List.any_cons, ih]

theorem any_congr {β : Type} {l : List β} {f g : β → Bool} (h : ∀ x ∈ l, f x = g x) :
    l.any f = l.any g := by
  induction l with
  | nil => rfl
  | cons a t ih =>
    simp only [List.any_cons]
    rw [h a (List.mem_cons_self a t), ih (fun x hx => h x (List.mem_cons_of_mem a hx))]

theorem decide_docLt_cons (f : SortField) (rest : List SortField) (b d : Doc) :
    decide (docLt (f :: rest) b d)
      = (decide (fieldCmp f b d = .lt)
        || (decide (fieldCmp f b d = .eq) && decide (docLt rest b d))) := by
  unfold docLt
  rcases hf : fieldCmp f b d with _ | _ | _ <;> simp [cmpDocs, hf]

/-- The seek filter built by `get_filter` from the cursor of a boundary
document `b` matches exactly the documents strictly after `b` in the
lexicographic order of the sort specification — provided all boundary and
document values on the sort fields are non-null and no non-final sort
field is a designated id field. -/
theorem evalF_get_filter (cfg : PagCfg) :
    ∀ (spec : List SortField) (b d : Doc),
      (∀ f ∈ spec, (dGet b f.name).isSome = true) →
      (∀ f ∈ spec, (dGet d f.name).isSome = true) →
      (∀ f ∈ spec.dropLast, f.name ∉ cfg.id_fields) →
      evalF d (get_filter cfg spec (mkCursor b spec) false) = decide (docLt spec b d)
  | [], b, d, _, _, _ => by
    simp [get_filter, mkCursor, OrOp, evalF, docLt, cmpDocs]
  | f :: rest, b, d, hb, hd, hid => by
    obtain ⟨vb, hvb⟩ := Option.isSome_iff_exists.mp (hb f (List.mem_cons_self f rest))
    obtain ⟨w, hw⟩ := Option.isSome_iff_exists.mp (hd f (List.mem_cons_self f rest))
    rw [get_filter_def, mkCursor_cons, List.zip_cons_cons, List.map_cons, List.length_cons]
    rw [show (rest.zip (mkCursor b rest)).length
      = ((rest.zip (mkCursor b rest)).map (fun p => (p.1.name, p.1.direction, p.2))).length
      from (List.length_map _ _).symm]
    rw [range_map_take_cons (fun l => get_filter_clause cfg l false)]
    rw [OrOp_cons]
    simp only [evalF]
    have hcur : evalF d (get_filter_clause cfg [(f.name, f.direction, (f.name, dGet b f.name))] false)
        = decide (fieldCmp f b d = .lt) := by
      rw [gfc_singleton]
      exact evalF_current_nonnull cfg f b d hvb hw
    rw [hcur]
    rw [evalF_OrOp, any_map_fn]
    rcases hrest : rest with _ | ⟨r, rest'⟩
    · subst hrest
      rcases hf : fieldCmp f b d with _ | _ | _ <;>
        simp [docLt, cmpDocs, hf, mkCursor]
    · rw [← hrest]
      have hrne : rest ≠ [] := by rw [hrest]; exact List.cons_ne_nil r rest'
      have hfdrop : f ∈ (f :: rest).dropLast := by
        rw [hrest, List.dropLast_cons₂]
        exact List.mem_cons_self f _
      have hidf : f.name ∉ cfg.id_fields := hid f hfdrop
      set ccR := (rest.zip (mkCursor b rest)).map (fun p => (p.1.name, p.1.direction, p.2)) with hccR
      have hstep : ∀ i ∈ List.range ccR.length,
          evalF d
            (get_filter_clause cfg ((f.name, f.direction, (f.name, dGet b f.name)) :: ccR.take (i + 1)) false)
          = (evalF d (previous_item_clause cfg (f.name, f.direction, (f.name, dGet b f.name)))
            && evalF d (get_filter_clause cfg (ccR.take (i + 1)) false)) := by
        intro i hi
        have hilt : i < ccR.length := List.mem_range.mp hi
        have h2 : i + 1 < ((f.name, f.direction, (f.name, dGet b f.name)) :: ccR).length := by
          simp only [List.length_cons]
          omega
        have e1 := evalF_gfc_take cfg false d
          ((f.name, f.direction, (f.name, dGet b f.name)) :: ccR) (i + 1) h2
        have e2 := evalF_gfc_take cfg false d ccR i hilt
        rw [List.take_succ_cons, List.take_succ_cons] at e1
        rw [e1, e2, List.getD_cons_succ, List.map_cons, List.all_cons, Bool.and_assoc]
      have hh : ((List.range ccR.length).any (fun i => evalF d
            (get_filter_clause cfg
              ((f.name, f.direction, (f.name, dGet b f.name)) :: ccR.take (i + 1)) false)))
          = ((List.range ccR.length).any (fun i =>
              evalF d (previous_item_clause cfg (f.name, f.direction, (f.name, dGet b f.name)))
              && evalF d (get_filter_clause cfg (ccR.take (i + 1)) false))) :=
        any_congr hstep
      rw [hh]
      rw [any_and_left (List.range ccR.length)
        (evalF d (previous_item_clause cfg (f.name, f.direction, (f.name, dGet b f.name))))
        (fun i => evalF d (get_filter_clause cfg (ccR.take (i + 1)) false))]
      rw [evalF_previous_eq cfg f b d hidf]
      have hrec : (List.range ccR.length).any
            (fun i => evalF d (get_filter_clause cfg (ccR.take (i + 1)) false))
          = evalF d (get_filter cfg rest (mkCursor b rest) false) := by
        rw [get_filter_def, evalF_OrOp, any_map_fn]
        rw [show (rest.zip (mkCursor b rest)).length = ccR.length from (List.length_map _ _).symm]
      rw [hrec]
      rw [evalF_get_filter cfg rest b d
        (fun g hg => hb g (List.mem_cons_of_mem f hg))
        (fun g hg => hd g (List.mem_cons_of_mem f hg))
        (fun g hg => hid g (by
          rw [hrest, List.dropLast_cons₂]
          rw [hrest] at hg
          exact List.mem_cons_of_mem f hg))]
      rw [decide_docLt_cons]

theorem evalF_AndOp_cons (d : Doc) (c : Filter) (l : List Filter) :
    evalF d (AndOp (c :: l)) = (evalF d c && l.all (fun e => evalF d e)) := by
  rw [AndOp_cons]
  show (evalF d c && evalF d (AndOp l)) = _
  rw [evalF_AndOp]

/-- Filtering a strictly sorted decomposition `pre ++ b :: rest` for the
documents strictly after `b` yields exactly `rest`. -/
theorem filter_after_of_decomp {spec : List SortField} {L pre rest : List Doc} {b : Doc}
    (hL : L = pre ++ b :: rest) (hpair : L.Pairwise (docLt spec)) :
    L.filter (fun d => decide (docLt spec b d)) = rest := by
  subst hL
  rw [List.filter_append]
  rcases List.pairwise_append.mp hpair with ⟨_, hp2, hp12⟩
  have hpre : pre.filter (fun d => decide (docLt spec b d)) = [] := by
    rw [List.filter_eq_nil_iff]
    intro a ha
    have hab : docLt spec a b := hp12 a ha b (List.mem_cons_self b rest)
    simp only [decide_eq_true_eq]
    exact docLt_asymm hab
  rw [hpre, List.nil_append, List.filter_cons]
  have hbb : (decide (docLt spec b b) = true) = False := by
    simp [docLt, cmpDocs_refl]
  rw [if_neg (by rw [hbb]; exact id)]
  rw [List.filter_eq_self.mpr]
  intro a ha
  simp only [decide_eq_true_eq]
  exact (List.pairwise_cons.mp hp2).1 a ha

/-- One fetch of `BeanieCursorPagination.get_page` (forward mode), given
that the limited query returns the `limit + 1` prefix of the full sorted
remaining result set `S`: the returned items are the first `limit`
documents of `S` (all of `S` when no more than `limit` remain), and the
outgoing cursor encodes the last returned item exactly when more than
`limit` documents remained. -/
theorem cursor_get_page_components (cfg : PagCfg) (store : List Doc) (q : FindMany)
    (spec : List SortField) (limit : Nat) (cur : Option Cursor) (S : List Doc)
    (hexec : execQuery store
        { effective_query cfg q spec cur with limitN := some (limit + 1) }
      = S.take (limit + 1)) :
    ((cursor_get_page cfg store q spec limit cur false).1.items
        = if limit < S.length then S.take limit else S)
      ∧ ((cursor_get_page cfg store q spec limit cur false).1.next
        = if limit < S.length
          then (S.take limit).getLast?.map (fun l => mkCursor l spec) else none) := by
  unfold cursor_get_page limit_get_page
  simp only [] at hexec ⊢
  simp only [hexec]
  by_cases h : limit < S.length
  · have hfetch : (List.take (limit + 1) S).length > limit := by
      rw [List.length_take]
      omega
    have htt : (S.take (limit + 1)).take limit = S.take limit := by
      rw [List.take_take]
      congr 1
      omega
    simp only [if_pos hfetch, if_pos h, htt]
    constructor
    · simp
    · cases hgl : (S.take limit).getLast? with
      | none => simp [hgl]
      | some l => simp [hgl]
  · have htk : S.take (limit + 1) = S := List.take_of_length_le (by omega)
    have hfetch : ¬ ((List.take (limit + 1) S).length > limit) := by
      rw [htk]
      omega
    simp only [if_neg hfetch, if_neg h, htk]
    constructor
    · simp
    · cases hgl : S.getLast? with
      | none => simp [hgl]
      | some l => simp [hgl]

theorem exec_eff_some (cfg : PagCfg) (store : List Doc) (q : FindMany)
    (spec : List SortField) (limit : Nat) (c : Cursor) :
    execQuery store { effective_query cfg q spec (some c) with limitN := some (limit + 1) }
      = (sortDocs spec (store.filter (fun d =>
          evalF d (get_filter cfg spec c false)
            && q.find_expressions.all (fun e => evalF d e)))).take (limit + 1) := by
  unfold effective_query execQuery
  simp only []
  congr 2
  apply List.filter_congr
  intro x _
  simp [List.all_cons, List.all_nil, Bool.and_true, evalF_AndOp_cons]

theorem exec_eff_none (cfg : PagCfg) (store : List Doc) (q : FindMany)
    (spec : List SortField) (limit : Nat) :
    execQuery store { effective_query cfg q spec none with limitN := some (limit + 1) }
      = (sortDocs spec (store.filter (fun d =>
          q.find_expressions.all (fun e => evalF d e)))).take (limit + 1) := by
  unfold effective_query execQuery
  simp only []

theorem take_decomp {l : List Doc} {limit : Nat} {b' : Doc} {init : List Doc}
    (h : l.take limit = init ++ [b']) : l = init ++ b' :: l.drop limit := by
  conv_lhs => rw [← List.take_append_drop limit l]
  rw [h, List.append_assoc, List.singleton_append]

/-- After a page ending at boundary `b`, the documents matched by the seek
filter conjoined with the base predicate, sorted, are exactly the sorted
tail `rest` that follows `b` in the full sorted result set. -/
theorem remaining_after (cfg : PagCfg) (store : List Doc) (P : Doc → Bool)
    (spec : List SortField) (uf : SortField) (b : Doc) (pre rest : List Doc)
    (hspec : spec.getLast? = some uf)
    (hid : ∀ f ∈ spec.dropLast, f.name ∉ cfg.id_fields)
    (hnn : ∀ d ∈ store, ∀ f ∈ spec, (dGet d f.name).isSome = true)
    (huf : store.Pairwise (fun d e => dGet d uf.name ≠ dGet e uf.name))
    (hL : sortDocs spec (store.filter P) = pre ++ b :: rest) :
    sortDocs spec (store.filter (fun d =>
      evalF d (get_filter cfg spec (mkCursor b spec) false) && P d)) = rest := by
  have hMperm : (sortDocs spec (store.filter P)).Perm (store.filter P) := sortDocs_perm spec _
  have hbL : b ∈ sortDocs spec (store.filter P) := by
    rw [hL]
    exact List.mem_append_right _ (List.mem_cons_self b rest)
  have hbstore : b ∈ store := List.mem_of_mem_filter (hMperm.mem_iff.mp hbL)
  have hMpair : (store.filter P).Pairwise (fun d e => dGet d uf.name ≠ dGet e uf.name) :=
    List.Pairwise.sublist (List.filter_sublist store) huf
  have hLpair : (sortDocs spec (store.filter P)).Pairwise (docLt spec) :=
    sortDocs_pairwise_lt hspec hMpair
  have hptw : store.filter (fun d =>
        evalF d (get_filter cfg spec (mkCursor b spec) false) && P d)
      = store.filter (fun d => decide (docLt spec b d) && P d) := by
    apply List.filter_congr
    intro x hx
    rw [evalF_get_filter cfg spec b x (fun f hf => hnn b hbstore f hf)
      (fun f hf => hnn x hx f hf) hid]
  have hsplit : store.filter (fun d => decide (docLt spec b d) && P d)
      = (store.filter P).filter (fun d => decide (docLt spec b d)) :=
    (List.filter_filter _ _).symm
  have hperm2 : ((store.filter P).filter (fun d => decide (docLt spec b d))).Perm rest := by
    rw [← filter_after_of_decomp hL hLpair]
    exact List.Perm.filter _ hMperm.symm
  have hXpair : (sortDocs spec (store.filter
      (fun d => decide (docLt spec b d) && P d))).Pairwise (docLt spec) :=
    sortDocs_pairwise_lt hspec (List.Pairwise.sublist (List.filter_sublist store) huf)
  have hrestpair : rest.Pairwise (docLt spec) := by
    apply List.Pairwise.sublist _ hLpair
    rw [hL]
    exact (List.sublist_cons_self b rest).trans (List.sublist_append_right pre (b :: rest))
  have hfinal : (sortDocs spec (store.filter
      (fun d => decide (docLt spec b d) && P d))).Perm rest := by
    refine (sortDocs_perm spec _).trans ?_
    rw [hsplit]
    exact hperm2
  rw [hptw]
  exact perm_pairwise_lt_eq hfinal hXpair hrestpair

/-- Continuing the traversal from the cursor of a boundary document `b`
yields exactly the documents after `b` in the full sorted result set. -/
theorem paginate_from_cursor (cfg : PagCfg) (store : List Doc) (q : FindMany)
    (spec : List SortField) (uf : SortField) (limit : Nat)
    (hspec : spec.getLast? = some uf)
    (hid : ∀ f ∈ spec.dropLast, f.name ∉ cfg.id_fields)
    (hnn : ∀ d ∈ store, ∀ f ∈ spec, (dGet d f.name).isSome = true)
    (huf : store.Pairwise (fun d e => dGet d uf.name ≠ dGet e uf.name))
    (hlim : 0 < limit) :
    ∀ (fuel : Nat) (pre rest : List Doc) (b : Doc),
      sortDocs spec (store.filter (fun d => q.find_expressions.all (fun e => evalF d e)))
        = pre ++ b :: rest →
      rest.length < fuel →
      paginate cfg store q spec limit fuel (some (mkCursor b spec)) = rest := by
  intro fuel
  induction fuel with
  | zero =>
    intro pre rest b _ hfl
    omega
  | succ fuel ih =>
    intro pre rest b hL hfl
    have hrem := remaining_after cfg store
      (fun d => q.find_expressions.all (fun e => evalF d e))
      spec uf b pre rest hspec hid hnn huf hL
    have hexec : execQuery store
        { effective_query cfg q spec (some (mkCursor b spec)) with limitN := some (limit + 1) }
        = rest.take (limit + 1) := by
      rw [exec_eff_some, hrem]
    have hcomp := cursor_get_page_components cfg store q spec limit
      (some (mkCursor b spec)) rest hexec
    simp only [paginate]
    rw [hcomp.1, hcomp.2]
    by_cases hlen : limit < rest.length
    · rw [if_pos hlen, if_pos hlen]
      have htl : rest.take limit ≠ [] := by
        intro hc
        have hlc := congrArg List.length hc
        rw [List.length_take] at hlc
        simp only [List.length_nil] at hlc
        omega
      obtain ⟨b', hb'⟩ : ∃ b', (rest.take limit).getLast? = some b' := by
        cases hg : (rest.take limit).getLast? with
        | none =>
          exfalso
          have := List.getLast?_isSome.mpr htl
          rw [hg] at this
          exact absurd this (by simp)
        | some x => exact ⟨x, rfl⟩
      rw [hb']
      obtain ⟨init, hinit⟩ := List.getLast?_eq_some_iff.mp hb'
      have hrest2 : rest = init ++ b' :: rest.drop limit := take_decomp hinit
      have hdec : sortDocs spec
          (store.filter (fun d => q.find_expressions.all (fun e => evalF d e)))
          = (pre ++ b :: init) ++ b' :: rest.drop limit := by
        rw [hL]
        conv_lhs => rw [hrest2]
        rw [List.append_assoc, List.cons_append]
      have hbound : (rest.drop limit).length < fuel := by
        rw [List.length_drop]
        omega
      have hrec := ih (pre ++ b :: init) (rest.drop limit) b' hdec hbound
      simp only [Option.map_some']
      rw [hrec]
      exact List.take_append_drop limit rest
    · rw [if_neg hlen, if_neg hlen]
      exact List.append_nil rest

/-- Iterating from the first page (no cursor) yields the full sorted
result set of the base query. -/
theorem paginate_none_eq (cfg : PagCfg) (store : List Doc) (q : FindMany)
    (spec : List SortField) (uf : SortField) (limit : Nat) (fuel : Nat)
    (hspec : spec.getLast? = some uf)
    (hid : ∀ f ∈ spec.dropLast, f.name ∉ cfg.id_fields)
    (hnn : ∀ d ∈ store, ∀ f ∈ spec, (dGet d f.name).isSome = true)
    (huf : store.Pairwise (fun d e => dGet d uf.name ≠ dGet e uf.name))
    (hlim : 0 < limit)
    (hfuel : (store.filter (fun d => q.find_expressions.all (fun e => evalF d e))).length < fuel) :
    paginate cfg store q spec limit fuel none
      = sortDocs spec (store.filter (fun d => q.find_expressions.all (fun e => evalF d e))) := by
  cases fuel with
  | zero => omega
  | succ fuel =>
    have hexec : execQuery store
        { effective_query cfg q spec none with limitN := some (limit + 1) }
        = (sortDocs spec (store.filter
            (fun d => q.find_expressions.all (fun e => evalF d e)))).take (limit + 1) :=
      exec_eff_none cfg store q spec limit
    have hcomp := cursor_get_page_components cfg store q spec limit none _ hexec
    have hlenL : (sortDocs spec (store.filter
        (fun d => q.find_expressions.all (fun e => evalF d e)))).length
        = (store.filter (fun d => q.find_expressions.all (fun e => evalF d e))).length :=
      (sortDocs_perm spec _).length_eq
    simp only [paginate]
    rw [hcomp.1, hcomp.2]
    by_cases hlen : limit < (sortDocs spec (store.filter
        (fun d => q.find_expressions.all (fun e => evalF d e)))).length
    · rw [if_pos hlen, if_pos hlen]
      have htl : (sortDocs spec (store.filter
          (fun d => q.find_expressions.all (fun e => evalF d e)))).take limit ≠ [] := by
        intro hc
        have hlc := congrArg List.length hc
        rw [List.length_take] at hlc
        simp only [List.length_nil] at hlc
        omega
      obtain ⟨b', hb'⟩ : ∃ b', ((sortDocs spec (store.filter
          (fun d => q.find_expressions.all (fun e => evalF d e)))).take limit).getLast?
          = some b' := by
        cases hg : ((sortDocs spec (store.filter
            (fun d => q.find_expressions.all (fun e => evalF d e)))).take limit).getLast? with
        | none =>
          exfalso
          have := List.getLast?_isSome.mpr htl
          rw [hg] at this
          exact absurd this (by simp)
        | some x => exact ⟨x, rfl⟩
      rw [hb']
      obtain ⟨init, hinit⟩ := List.getLast?_eq_some_iff.mp hb'
      have hdec : sortDocs spec
          (store.filter (fun d => q.find_expressions.all (fun e => evalF d e)))
          = init ++ b' :: (sortDocs spec (store.filter
              (fun d => q.find_expressions.all (fun e => evalF d e)))).drop limit :=
        take_decomp hinit
      have hbound : ((sortDocs spec (store.filter
          (fun d => q.find_expressions.all (fun e => evalF d e)))).drop limit).length < fuel := by
        rw [List.length_drop]
        omega
      have hrec := paginate_from_cursor cfg store q spec uf limit hspec hid hnn huf hlim
        fuel init _ b' hdec hbound
      simp only [Option.map_some']
      rw [hrec]
      exact List.take_append_drop limit _
    · rw [if_neg hlen, if_neg hlen]
      exact List.append_nil _

theorem getD_of_lt {α : Type} (l : List α) (i : Nat) (h : i < l.length) (d : α) :
    l.getD i d = l[i] := by
  rw [List.getD_eq_getElem?_getD, List.getElem?_eq_getElem h]
  rfl

theorem getD_mem_of_lt {α : Type} (l : List α) (i : Nat) (h : i < l.length) (d : α) :
    l.getD i d ∈ l := by
  rw [getD_of_lt l i h d]
  exact List.getElem_mem h

theorem getD_map_of_lt {α β : Type} (f : α → β) (l : List α) (i : Nat) (h : i < l.length)
    (d1 : α) (d2 : β) : (l.map f).getD i d2 = f (l.getD i d1) := by
  have h2 : i < (l.map f).length := by
    rw [List.length_map]
    exact h
  rw [getD_of_lt _ i h2 d2, getD_of_lt l i h d1]
  exact List.getElem_map f

theorem mem_take_dropLast {α : Type} {l : List α} {i : Nat} (hi : i < l.length) {x : α}
    (hx : x ∈ l.take i) : x ∈ l.dropLast := by
  rw [List.dropLast_eq_take]
  have h1 : l.take i = (l.take (l.length - 1)).take i := by
    rw [List.take_take]
    congr 1
    omega
  rw [h1] at hx
  exact List.Sublist.mem hx (List.take_sublist _ _)

/-- On a non-null cursor value for a non-nullable field, the current
clause of a page filter is the plain direction comparison built by
`set_operator` on the decoded value. -/
theorem prepare_current_plain (cfg : PagCfg) (col : String) (dir : SortingDirection)
    (e : CursorEntry) (v : Int) (hv : e.2 = some v) (hnul : e.1 ∉ cfg.nullable_fields) :
    prepare_current_clause cfg col dir e false = set_operator col (.val e.2) dir := by
  have hnd : (decide (e.1 ∉ cfg.id_fields) && decide (e.1 ∈ cfg.nullable_fields)) = false := by
    rw [Bool.and_eq_false_iff]
    right
    exact decide_eq_false hnul
  cases dir with
  | ascending =>
    unfold prepare_current_clause handle_nullable
    simp only [cast', hv, hnd]
    simp [set_operator]
  | descending =>
    unfold prepare_current_clause
    simp only [cast', hv]
    simp [set_operator]

/-- Under the amended C1 hypotheses (no null cursor values, no nullable
sort fields, no id field before the last position), the clause built from
the prefix of length `i + 1` is the conjunction of decoded-value prefix
equalities with a plain direction comparison. -/
theorem gfc_c1_amended (cfg : PagCfg) (pairs : List (SortField × CursorEntry)) (i : Nat)
    (hi : i < pairs.length)
    (H2 : ∀ p ∈ pairs.dropLast, p.2.1 ∉ cfg.id_fields)
    (H3 : ∀ p ∈ pairs, p.2.1 ∉ cfg.nullable_fields)
    (H4 : ∀ p ∈ pairs, p.2.2 ≠ none) :
    get_filter_clause cfg
        ((pairs.map (fun p => (p.1.name, p.1.direction, p.2))).take (i + 1)) false
      = c1_amended_clause pairs i := by
  set cc := pairs.map (fun p => (p.1.name, p.1.direction, p.2)) with hcc
  have hilen : i < cc.length := by
    rw [hcc, List.length_map]
    exact hi
  rw [take_succ_getD cc i hilen dCC, gfc_concat]
  have hgetD : cc.getD i dCC
      = ((pairs.getD i defaultPair).1.name, (pairs.getD i defaultPair).1.direction,
          (pairs.getD i defaultPair).2) := by
    rw [hcc]
    exact getD_map_of_lt _ pairs i hi defaultPair dCC
  have hx : pairs.getD i defaultPair ∈ pairs := getD_mem_of_lt pairs i hi defaultPair
  obtain ⟨v, hv⟩ : ∃ v, (pairs.getD i defaultPair).2.2 = some v := by
    cases hc : (pairs.getD i defaultPair).2.2 with
    | none => exact absurd hc (H4 _ hx)
    | some v => exact ⟨v, rfl⟩
  have hcur : prepare_current_clause cfg (cc.getD i dCC).1 (cc.getD i dCC).2.1
        (cc.getD i dCC).2.2 false
      = set_operator (pairs.getD i defaultPair).1.name
          (.val (pairs.getD i defaultPair).2.2) (pairs.getD i defaultPair).1.direction := by
    rw [hgetD]
    exact prepare_current_plain cfg _ _ _ v hv (H3 _ hx)
  by_cases hi0 : i = 0
  · subst hi0
    simp only [List.take_zero]
    unfold c1_amended_clause
    rw [if_pos rfl]
    exact hcur
  · obtain ⟨a, t, hti⟩ : ∃ a t, cc.take i = a :: t := by
      cases hc : cc.take i with
      | nil =>
        exfalso
        rcases List.take_eq_nil_iff.mp hc with h | h
        · exact hi0 h
        · rw [h] at hilen
          simp at hilen
      | cons a t => exact ⟨a, t, rfl⟩
    rw [hti]
    unfold c1_amended_clause
    rw [if_neg hi0, ← hti, hcur]
    have hmt : cc.take i = (pairs.take i).map (fun p => (p.1.name, p.1.direction, p.2)) := by
      rw [hcc, List.map_take]
    rw [hmt, List.map_map]
    have hmc : ∀ p ∈ pairs.take i,
        (previous_item_clause cfg ∘ fun p => (p.1.name, p.1.direction, p.2)) p
          = Filter.feq p.1.name p.2.2 := by
      intro p hp
      have hdl : p ∈ pairs.dropLast := mem_take_dropLast hi hp
      simp only [Function.comp_apply]
      unfold previous_item_clause
      rw [if_pos (H2 p hdl)]
      rfl
    rw [List.map_congr_left hmc]
    have hcons : List.map (fun p => (p.1.name, p.1.direction, p.2)) (List.take i pairs)
        = a :: t := by
      rw [← hmt]
      exact hti
    rw [hcons]

/-! ### Claim C3 -/

/-- C3 counterexample: the page fetch performs no limit validation.
Called with `limit = 0` on a two-document store it does not fail — it
returns a well-formed `PaginatedResponse` (empty items, null cursor,
null index, total 2) instead of raising `InvalidLimitError`. -/
theorem claim3_counterexample :
    (cursor_get_page exCfg exStore2 exQ exSpecI 0 none false).1
      = ⟨[], none, none, 2⟩ := by
  decide

/-- C3 (amended): `get_page` performs no limit validation; with
`limit = 0` it returns a response whose item list is empty and whose
outgoing cursor is null, for every store, base query, sort specification,
incoming cursor and traversal direction, rather than failing with
`InvalidLimitError`. -/
theorem claim3_amended (cfg : PagCfg) (store : List Doc) (q : FindMany)
    (spec : List SortField) (cur : Option Cursor) (reversed : Bool) :
    (cursor_get_page cfg store q spec 0 cur reversed).1.items = []
      ∧ (cursor_get_page cfg store q spec 0 cur reversed).1.next = none := by
  unfold cursor_get_page limit_get_page
  simp only []
  by_cases h : (execQuery store
      { effective_query cfg q spec cur with limitN := some (0 + 1) }).length > 0
  · simp [if_pos h]
  · have he : execQuery store
        { effective_query cfg q spec cur with limitN := some (0 + 1) } = [] := by
      cases hc : execQuery store
          { effective_query cfg q spec cur with limitN := some (0 + 1) } with
      | nil => rfl
      | cons a t =>
        rw [hc] at h
        simp at h
    simp [if_neg h, he]

/-! ### Claim C4 -/

/-- C4 counterexample: for the nullable field `n` with non-null cursor
value 5 and *descending* direction, the per-field comparison clause is the
plain `n < 5`, not the claimed relaxation `(n IS NULL) OR (n < 5)`; on a
document with `n = null` the claimed clause matches but the built clause
does not — so the null-last relaxation is not applied uniformly in both
directions. -/
theorem claim4_counterexample :
    prepare_current_clause exCfg "n" .descending ("n", some 5) false
        = Filter.flt "n" (.val (some 5))
      ∧ prepare_current_clause exCfg "n" .descending ("n", some 5) false
        ≠ OrOp [.feq "n" none, set_operator "n" (.val (some 5)) .descending]
      ∧ evalF [("n", none)] (OrOp [.feq "n" none, set_operator "n" (.val (some 5)) .descending])
        = true
      ∧ evalF [("n", none)] (prepare_current_clause exCfg "n" .descending ("n", some 5) false)
        = false := by
  decide

/-- C4 (amended): for a nullable, non-id sort field with a non-null
cursor value, the `(field IS NULL) OR (comparison)` relaxation is applied
only in the ascending direction; in the descending direction the clause is
the plain less-than comparison with no null relaxation. -/
theorem claim4_amended (cfg : PagCfg) (col : String) (e : CursorEntry) (v : Int) (iq : Bool)
    (hv : e.2 = some v) (hid : e.1 ∉ cfg.id_fields) (hnul : e.1 ∈ cfg.nullable_fields) :
    prepare_current_clause cfg col .ascending e iq
        = OrOp [.feq col none, .fgt col (.val (some v))]
      ∧ prepare_current_clause cfg col .descending e iq = .flt col (.val (some v)) := by
  constructor
  · unfold prepare_current_clause handle_nullable set_operator
    simp only [cast', hv]
    have hb : (decide (e.1 ∉ cfg.id_fields) && decide (e.1 ∈ cfg.nullable_fields)) = true := by
      simp [hid, hnul]
    rw [hb]
    simp
  · unfold prepare_current_clause
    simp only [cast', hv]

/-- C4 witness: the amended statement at the concrete nullable field `n`,
cursor value 5, in the page-filter mode. -/
theorem claim4_witness :
    (prepare_current_clause exCfg "n" .ascending ("n", some 5) false
        = OrOp [.feq "n" none, .fgt "n" (.val (some 5))]
      ∧ prepare_current_clause exCfg "n" .descending ("n", some 5) false
        = .flt "n" (.val (some 5))) :=
  claim4_amended exCfg "n" ("n", some 5) 5 false rfl (by decide) (by decide)

/-! ### Claim C7 -/

/-- C7 counterexample: in index-query mode with a null boundary value on
a *descending* field the clause is `(f != null) OR (f < null)`, not the
claimed direction-independent `(f != null) OR (f > null)`. -/
theorem claim7_counterexample :
    prepare_current_clause exCfg0 "f" .descending ("f", none) true
        = OrOp [.fne "f" none, .flt "f" (.val none)]
      ∧ prepare_current_clause exCfg0 "f" .descending ("f", none) true
        ≠ OrOp [.fne "f" none, .fgt "f" (.val none)] := by
  decide

/-- C7 (amended): in index-query mode, when the cursor's boundary value
for a field is null, the comparison clause is widened to
`(field != cursor_value) OR (direction comparison against cursor_value)` —
greater-than when ascending, less-than when descending; only the
not-equal disjunct is direction-independent. -/
theorem claim7_amended (cfg : PagCfg) (col : String) (dir : SortingDirection)
    (e : CursorEntry) (he : e.2 = none) :
    prepare_current_clause cfg col dir e true
      = OrOp [.fne col none, set_operator col (.val none) dir] := by
  cases dir with
  | ascending =>
    unfold prepare_current_clause set_operator
    simp only [cast', he]
    simp
  | descending =>
    unfold prepare_current_clause set_operator
    simp only [cast', he]
    simp

/-- C7 witness: the amended statement at a concrete descending field with
a null boundary value in index-query mode. -/
theorem claim7_witness :
    prepare_current_clause exCfg0 "f" .descending ("f", none) true
      = OrOp [.fne "f" none, set_operator "f" (.val none) .descending] :=
  claim7_amended exCfg0 "f" .descending ("f", none) rfl

/-! ### Claim C1 -/

/-- C1 counterexample: with the designated id field `id` in first (prefix)
position of the sort specification, clause 2 of the built filter compares
the id column against the raw cursor *pair* instead of requiring equality
on the decoded value.  The document `{id: 1, a: 5}` lies strictly after
the cursor position `(id = 1, a = 2)`, so the claimed
disjunction-of-prefix-clauses matches it, but the filter built by
`get_filter` evaluates to false on it. -/
theorem claim1_counterexample :
    evalF [("id", some 1), ("a", some 5)]
        (get_filter exCfg [⟨"id", .ascending⟩, ⟨"a", .ascending⟩]
          [("id", some 1), ("a", some 2)] false) = false
      ∧ evalF [("id", some 1), ("a", some 5)]
        (c1_claim_filter [⟨"id", .ascending⟩, ⟨"a", .ascending⟩]
          [("id", some 1), ("a", some 2)]) = true := by
  decide

/-- C1 (amended): provided no cursor entry is null, no cursor field is
nullable and no non-final cursor field is a designated id field,
`get_filter` returns the disjunction of exactly one clause per non-empty
prefix of the zipped (sort field, cursor entry) list, clause `i + 1` being
the conjunction of decoded-value equalities on the first `i` cursor fields
with the direction-consistent comparison (greater-than when ascending,
less-than when descending) on field `i + 1`, as `c1_amended_filter`
spells out. -/
theorem claim1_amended (cfg : PagCfg) (field_orderings : List SortField) (cursor : Cursor)
    (H2 : ∀ p ∈ (field_orderings.zip cursor).dropLast, p.2.1 ∉ cfg.id_fields)
    (H3 : ∀ p ∈ field_orderings.zip cursor, p.2.1 ∉ cfg.nullable_fields)
    (H4 : ∀ p ∈ field_orderings.zip cursor, p.2.2 ≠ none) :
    get_filter cfg field_orderings cursor false
      = c1_amended_filter field_orderings cursor := by
  rw [get_filter_def]
  unfold c1_amended_filter
  simp only []
  congr 1
  apply List.map_congr_left
  intro i hi
  exact gfc_c1_amended cfg (field_orderings.zip cursor) i (List.mem_range.mp hi) H2 H3 H4

/-- C1 witness: the amended statement at a concrete two-field sort
specification (`a` ascending, id field `id` descending last) with a fully
non-null cursor. -/
theorem claim1_witness :
    get_filter exCfg [⟨"a", .ascending⟩, ⟨"id", .descending⟩]
        [("a", some 1), ("id", some 7)] false
      = c1_amended_filter [⟨"a", .ascending⟩, ⟨"id", .descending⟩]
        [("a", some 1), ("id", some 7)] :=
  claim1_amended exCfg [⟨"a", .ascending⟩, ⟨"id", .descending⟩]
    [("a", some 1), ("id", some 7)] (by decide) (by decide) (by decide)

/-! ### Claim C5 -/

/-- C5 counterexample: five documents `a = 1..5`, cursor at `a = 3`, a
one-item page, reverse-traversal mode.  The inverted-filter count is 2
(documents with `a < 3`) and `total = 5`; the code reports index
`max(5 - (2 + 1) - 1, 0) = 1`, while the claimed formula
`total - count - itemsInPage` (clamped) gives `2`. -/
theorem claim5_counterexample :
    (get_page_info exCfg0 exStore5 exQ exSpecA (some [("a", some 3)])
        [[("a", some 4)]] true).1 = some 1
      ∧ index_query_count exCfg0 exStore5 exQ exSpecA [("a", some 3)] = 2
      ∧ c5_claim_reverse_index exCfg0 exStore5 exQ exSpecA [("a", some 3)] [[("a", some 4)]] = 2
      ∧ (get_page_info exCfg0 exStore5 exQ exSpecA (some [("a", some 3)])
          [[("a", some 4)]] true).1
        ≠ some (c5_claim_reverse_index exCfg0 exStore5 exQ exSpecA [("a", some 3)]
            [[("a", some 4)]]) := by
  decide

/-- C5 (amended): for a `get_page_info` call with a cursor and a
non-empty page, the forward index is the inverted-filter-and-base count
plus one, and in reverse-traversal mode the index is `total` minus that
*incremented* count minus the page length, clamped at zero (the quantity
subtracted is the count plus one, not the raw count); the reported total
is the count of documents matching the base query. -/
theorem claim5_amended (cfg : PagCfg) (store : List Doc) (query : FindMany)
    (field_orderings : List SortField) (cur : Cursor) (items : List Doc) (reversed : Bool)
    (hitems : items ≠ []) :
    (get_page_info cfg store query field_orderings (some cur) items reversed).1
        = some (if reversed
            then max ((queryCount store query : Int)
              - (index_query_count cfg store query field_orderings cur + 1) - items.length) 0
            else (index_query_count cfg store query field_orderings cur + 1))
      ∧ (get_page_info cfg store query field_orderings (some cur) items reversed).2
        = queryCount store query := by
  unfold get_page_info
  simp only []
  have hne : items.isEmpty = false := by
    cases items with
    | nil => exact absurd rfl hitems
    | cons a t => rfl
  rw [hne]
  cases reversed with
  | false => simp
  | true => simp

/-- C5 witness: the amended statement at the concrete five-document
store, cursor at `a = 3`, one-item page, reverse mode. -/
theorem claim5_witness :
    ((get_page_info exCfg0 exStore5 exQ exSpecA (some [("a", some 3)])
          [[("a", some 4)]] true).1
        = some (if true
            then max ((queryCount exStore5 exQ : Int)
              - (index_query_count exCfg0 exStore5 exQ exSpecA [("a", some 3)] + 1)
              - ([[("a", some 4)]] : List Doc).length) 0
            else (index_query_count exCfg0 exStore5 exQ exSpecA [("a", some 3)] + 1))
      ∧ (get_page_info exCfg0 exStore5 exQ exSpecA (some [("a", some 3)])
          [[("a", some 4)]] true).2 = queryCount exStore5 exQ) :=
  claim5_amended exCfg0 exStore5 exQ exSpecA [("a", some 3)] [[("a", some 4)]] true
    (by decide)

/-! ### Claim C6 -/

/-- C6: the page fetcher requests `limit + 1` documents from the store
(the limited query returns the `limit + 1` prefix of the unlimited one);
when exactly `limit + 1` come back, `has_next` is true and the item list
is trimmed to the first `limit`; otherwise `has_next` is false and every
returned document is kept. -/
theorem claim6 (store : List Doc) (q : FindMany) (limit : Nat) (hlim : 0 < limit) :
    (execQuery store { q with limitN := some (limit + 1) }
        = (execQuery store { q with limitN := none }).take (limit + 1))
      ∧ ((execQuery store { q with limitN := some (limit + 1) }).length = limit + 1 →
          limit_get_page store q limit
            = (((execQuery store { q with limitN := some (limit + 1) }).take limit, true),
                { q with limitN := some (limit + 1) }))
      ∧ ((execQuery store { q with limitN := some (limit + 1) }).length ≠ limit + 1 →
          limit_get_page store q limit
            = ((execQuery store { q with limitN := some (limit + 1) }, false),
                { q with limitN := some (limit + 1) })) := by
  refine ⟨?_, ?_, ?_⟩
  · unfold execQuery
    simp only []
  · intro h
    unfold limit_get_page
    simp only []
    rw [if_pos (by omega)]
  · intro h
    have hle : (execQuery store { q with limitN := some (limit + 1) }).length ≤ limit + 1 := by
      unfold execQuery
      simp only []
      cases q.sortSpec <;>
        (rw [List.length_take]; omega)
    unfold limit_get_page
    simp only []
    rw [if_neg (by omega)]

/-- C6 witness: at a three-document store and `limit = 1` the probe
returns two documents, `has_next` is true and the page is trimmed to one
document. -/
theorem claim6_witness :
    0 < 1
      ∧ limit_get_page exStore3 exQ 1
        = (((execQuery exStore3 { exQ with limitN := some (1 + 1) }).take 1, true),
            { exQ with limitN := some (1 + 1) }) :=
  ⟨by decide, (claim6 exStore3 exQ 1 (by decide)).2.1 (by decide)⟩

theorem execQuery_take (store : List Doc) (q : FindMany) (k : Nat) :
    execQuery store { q with limitN := some k }
      = (execQuery store { q with limitN := none }).take k := by
  unfold execQuery
  simp only []

/-! ### Claim C8 -/

/-- C8: in reverse-traversal mode the fetched item sequence is reversed
back to natural page order before being returned, and whenever the
response carries an outgoing cursor it encodes the last item of the
already-reordered page under the original (non-inverted) sort
specification — `mkCursor` reads only field names, never directions. -/
theorem claim8 (cfg : PagCfg) (store : List Doc) (q : FindMany)
    (field_orderings : List SortField) (limit : Nat) (next_ : Option Cursor) :
    ((cursor_get_page cfg store q field_orderings limit next_ true).1.items
        = (limit_get_page store (effective_query cfg q field_orderings next_) limit).1.1.reverse)
      ∧ ((cursor_get_page cfg store q field_orderings limit next_ true).1.next.isSome = true →
          (cursor_get_page cfg store q field_orderings limit next_ true).1.next
            = ((cursor_get_page cfg store q field_orderings limit next_ true).1.items.getLast?).map
                (fun l => mkCursor l field_orderings)) := by
  unfold cursor_get_page
  simp only []
  constructor
  · rfl
  · intro hs
    split
    · rename_i hgl
      rw [hgl]
      rfl
    · rename_i l hgl
      rw [hgl]
      rw [hgl] at hs
      simp only [Option.map_some']
      by_cases hn : (limit_get_page store (effective_query cfg q field_orderings next_) limit).1.2 = true
      · rw [if_pos hn]
      · exfalso
        simp [hn] at hs

/-- C8 witness: a concrete reverse-mode first-page call on the
three-document store returns the reversed fetched sequence and an
outgoing cursor encoding its last item. -/
theorem claim8_witness :
    ((cursor_get_page exCfg exStore3 exQ exSpecAI 1 none true).1.items
        = (limit_get_page exStore3 (effective_query exCfg exQ exSpecAI none) 1).1.1.reverse)
      ∧ ((cursor_get_page exCfg exStore3 exQ exSpecAI 1 none true).1.next
        = ((cursor_get_page exCfg exStore3 exQ exSpecAI 1 none true).1.items.getLast?).map
            (fun l => mkCursor l exSpecAI)) :=
  ⟨(claim8 exCfg exStore3 exQ exSpecAI 1 none).1,
    (claim8 exCfg exStore3 exQ exSpecAI 1 none).2 (by decide)⟩

/-! ### Claim C9 -/

/-- C9: the outgoing cursor is present only when another page exists —
whenever the returned page is empty, or no more documents match the
executed query than the requested limit (so `has_next` is false), the
response's `next` field is null. -/
theorem claim9 (cfg : PagCfg) (store : List Doc) (q : FindMany)
    (field_orderings : List SortField) (limit : Nat) (next_ : Option Cursor)
    (reversed : Bool) :
    ((cursor_get_page cfg store q field_orderings limit next_ reversed).1.items = [] →
        (cursor_get_page cfg store q field_orderings limit next_ reversed).1.next = none)
      ∧ ((execQuery store
            { effective_query cfg q field_orderings next_ with limitN := none }).length ≤ limit →
        (cursor_get_page cfg store q field_orderings limit next_ reversed).1.next = none) := by
  unfold cursor_get_page limit_get_page
  simp only []
  constructor
  · intro h
    rw [h]
    rfl
  · intro h
    have hlen : (execQuery store
        { effective_query cfg q field_orderings next_ with limitN := some (limit + 1) }).length
        ≤ limit := by
      rw [execQuery_take, List.length_take]
      omega
    simp only [] at hlen
    have hn : ¬ ((execQuery store
        { effective_query cfg q field_orderings next_ with limitN := some (limit + 1) }).length
          > limit) := by
      simp only []
      omega
    simp only [] at hn
    rw [if_neg hn]
    split
    · rfl
    · simp

/-- C9 witness: with `limit` at least the number of matching documents
the next cursor is null, and an empty page also yields a null next
cursor. -/
theorem claim9_witness :
    ((execQuery exStore2
          { effective_query exCfg exQ exSpecI none with limitN := none }).length ≤ 2
      ∧ (cursor_get_page exCfg exStore2 exQ exSpecI 2 none false).1.next = none) :=
  ⟨by decide, (claim9 exCfg exStore2 exQ exSpecI 2 none false).2 (by decide)⟩

/-! ### Claim C10 -/

/-- C10: a `get_page` call without an incoming cursor applies the sort
(and the probe limit) in place to the caller's query object and executes
that same object — the returned items are the trim of executing the
mutated caller state; a continuation call (with a cursor) builds a fresh
query and returns the caller's query object unchanged. -/
theorem claim10 (cfg : PagCfg) (store : List Doc) (q : FindMany)
    (field_orderings : List SortField) (limit : Nat) (next_ : Option Cursor)
    (reversed : Bool) :
    (next_ = none →
        (cursor_get_page cfg store q field_orderings limit next_ reversed).2
            = { q with sortSpec := some field_orderings, limitN := some (limit + 1) }
          ∧ (cursor_get_page cfg store q field_orderings limit next_ reversed).1.items
            = trimPage (execQuery store
                (cursor_get_page cfg store q field_orderings limit next_ reversed).2)
                limit reversed)
      ∧ (∀ c, next_ = some c →
          (cursor_get_page cfg store q field_orderings limit next_ reversed).2 = q) := by
  constructor
  · intro h
    subst h
    constructor
    · unfold cursor_get_page limit_get_page effective_query
      simp only []
      split
      · rfl
      · rfl
    · unfold cursor_get_page limit_get_page effective_query trimPage
      simp only []
      by_cases hc : (execQuery store
          { q with sortSpec := some field_orderings, limitN := some (limit + 1) }).length > limit
      · rw [if_pos hc, if_pos hc]
      · rw [if_neg hc, if_neg hc]
  · intro c h
    subst h
    unfold cursor_get_page
    simp only []

/-- C10 witness: both branches at concrete inputs — a cursorless call
leaves the caller's query sorted and limited and its items are the trim of
executing that state, and a continuation call returns the query
unchanged. -/
theorem claim10_witness :
    ((cursor_get_page exCfg exStore2 exQ exSpecI 1 none false).2
        = { exQ with sortSpec := some exSpecI, limitN := some (1 + 1) }
      ∧ (cursor_get_page exCfg exStore2 exQ exSpecI 1 none false).1.items
        = trimPage (execQuery exStore2
            (cursor_get_page exCfg exStore2 exQ exSpecI 1 none false).2) 1 false
      ∧ (cursor_get_page exCfg exStore2 exQ exSpecI 1
          (some [("id", some 1)]) false).2 = exQ) :=
  ⟨((claim10 exCfg exStore2 exQ exSpecI 1 none false).1 rfl).1,
    ((claim10 exCfg exStore2 exQ exSpecI 1 none false).1 rfl).2,
    (claim10 exCfg exStore2 exQ exSpecI 1 (some [("id", some 1)]) false).2
      [("id", some 1)] rfl⟩

/-! ### Claim C2 -/

/-- C2 counterexample: a sort specification ending in the unique id field
(`n` descending, then `id` ascending) over three documents, one of which
has a null `n`.  Iterating all pages with `limit = 1` and following the
returned cursors visits only the two non-null documents: the filter for
the page after the boundary `n = 1` is the plain `n < 1`, which the
null-valued document does not match, so it is skipped — the cursor
traversal does not visit every matching document. -/
theorem claim2_counterexample :
    paginate exCfg exStoreN exQ exSpecND 1 5 none
        = [[("n", some 2), ("id", some 1)], [("n", some 1), ("id", some 2)]]
      ∧ ([("n", none), ("id", some 3)] : Doc) ∈ exStoreN
      ∧ ([("n", none), ("id", some 3)] : Doc) ∉ paginate exCfg exStoreN exQ exSpecND 1 5 none := by
  decide

/-- C2 (amended): for a sort specification whose last field is unique per
document and not preceded by any designated id field, and a store in
which every document carries a non-null value on every sort field,
iterating the whole result set page by page via `get_page`, feeding each
returned next-cursor into the following call, yields exactly the sorted
result set of the base query — every matching document exactly once, in
sort order, with no duplicates and no omissions. -/
theorem claim2_amended (cfg : PagCfg) (store : List Doc) (q : FindMany)
    (field_orderings : List SortField) (uf : SortField) (limit fuel : Nat)
    (hspec : field_orderings.getLast? = some uf)
    (hid : ∀ f ∈ field_orderings.dropLast, f.name ∉ cfg.id_fields)
    (hnn : ∀ d ∈ store, ∀ f ∈ field_orderings, (dGet d f.name).isSome = true)
    (huf : store.Pairwise (fun d e => dGet d uf.name ≠ dGet e uf.name))
    (hlim : 0 < limit)
    (hfuel : (store.filter (fun d => q.find_expressions.all (fun e => evalF d e))).length < fuel) :
    paginate cfg store q field_orderings limit fuel none
      = sortDocs field_orderings
          (store.filter (fun d => q.find_expressions.all (fun e => evalF d e))) :=
  paginate_none_eq cfg store q field_orderings uf limit fuel hspec hid hnn huf hlim hfuel

/-- C2 witness: the amended statement at a concrete three-document store
sorted by `a` ascending with the unique `id` as final tie-breaker,
`limit = 1`. -/
theorem claim2_witness :
    paginate exCfg exStore3 exQ exSpecAI 1 4 none
      = sortDocs exSpecAI
          (exStore3.filter (fun d => exQ.find_expressions.all (fun e => evalF d e))) :=
  claim2_amended exCfg exStore3 exQ exSpecAI ⟨"id", .ascending⟩ 1 4
    (by decide) (by decide) (by decide) (by decide) (by decide) (by decide)

end Beanie
